import Mathlib

set_option maxRecDepth 4000

/-!
Shallow embedding of the pixel-transform engine and the image analyzer of
`src/CryptaPixelon.py`.

A numpy pixel array is either 2-dimensional (grayscale: rows of samples) or
3-dimensional (color: rows of pixels of channel samples).  Samples are
modelled as unbounded integers: the source casts the `uint8` input to
`int16` before transforming, and for the value ranges that occur (samples
in [0,255], keys in [1,255]) no intermediate value leaves the `int16`
range, so plain integer arithmetic is bit-faithful.  The Python `%` with a
positive divisor agrees with `Int.emod` (the Lean `%` on `Int`), and the numpy
arithmetic right shift on nonnegative values agrees with `Int.ediv`
(the Lean `/` on `Int`).
-/

/-- A 2-dimensional (grayscale) pixel array: rows of samples. -/
abbrev Img2 := List (List Int)

/-- A 3-dimensional (color) pixel array: rows of pixels of channel samples. -/
abbrev Img3 := List (List (List Int))

/-- A pixel buffer as passed to the transform functions: a numpy array of
dimension 2 or 3 (`len(pixels.shape)` is 2 or 3). -/
inductive PixBuf where
  | g : Img2 → PixBuf
  | c : Img3 → PixBuf
deriving DecidableEq

/-- All samples of a 2-dimensional array satisfy `P`. -/
def rowsAll2 (P : Int → Prop) (rows : Img2) : Prop :=
  ∀ r ∈ rows, ∀ s ∈ r, P s

/-- All samples of a 3-dimensional array satisfy `P`. -/
def rowsAll3 (P : Int → Prop) (rows : Img3) : Prop :=
  ∀ r ∈ rows, ∀ p ∈ r, ∀ s ∈ p, P s

/-- All samples of a buffer satisfy `P`. -/
def PixBuf.samplesIn (P : Int → Prop) : PixBuf → Prop
  | .g rows => rowsAll2 P rows
  | .c rows => rowsAll3 P rows

/-- All samples are 8-bit values, i.e. lie in [0,255]; this is the at-rest
invariant of a decoded `uint8` image. -/
def PixBuf.InRange (B : PixBuf) : Prop :=
  B.samplesIn fun s => 0 ≤ s ∧ s ≤ 255

/-- A rectangular 2-dimensional array of numpy shape `(h, w)`. -/
def RowsShape2 (rows : Img2) (h w : Nat) : Prop :=
  rows.length = h ∧ ∀ r ∈ rows, r.length = w

/-- A rectangular 3-dimensional array of numpy shape `(h, w, ch)`. -/
def RowsShape3 (rows : Img3) (h w ch : Nat) : Prop :=
  rows.length = h ∧ ∀ r ∈ rows, r.length = w ∧ ∀ p ∈ r, p.length = ch

/-- The buffer has the given numpy shape (`[h, w]` or `[h, w, ch]`). -/
def PixBuf.HasShape : PixBuf → List Nat → Prop
  | .g rows, [h, w] => RowsShape2 rows h w
  | .c rows, [h, w, ch] => RowsShape3 rows h w ch
  | _, _ => False

/-- Bitwise XOR of a sample with the key, computed via ℕ.  The source
computes `pixels ^ key` on `int16`; for nonnegative operands below 2^15
(all values that occur: samples in [0,255], keys in [1,255]) `int16` XOR
agrees with XOR on ℕ. -/
def xorSample (key s : Int) : Int := ((s.toNat ^^^ key.toNat : Nat) : Int)

/-- Bitwise AND of a sample with a mask, computed via ℕ (`pixels & 0xFE`
in the source, on nonnegative `int16` values). -/
def landSample (m s : Int) : Int := ((s.toNat &&& m.toNat : Nat) : Int)

/-- Bitwise OR of a sample with a noise bit, computed via ℕ
(`pixels | noise` in the source, on nonnegative `int16` values). -/
def lorSample (s n : Int) : Int := ((s.toNat ||| n.toNat : Nat) : Int)

/-- `np.clip(s, 0, 255)` on one sample. -/
def clipSample (s : Int) : Int := max 0 (min 255 s)

/-- Apply `f` to every sample (numpy elementwise operation). -/
def PixBuf.mapSamples (f : Int → Int) : PixBuf → PixBuf
  | .g rows => .g (rows.map (List.map f))
  | .c rows => .c (rows.map (List.map (List.map f)))

/-- Combine two buffers elementwise.  The source only does this between
`pixels` and `np.random.randint(0, 2, pixels.shape)`, which always has the
same shape and the same number of dimensions, so the mismatched-constructor
fallback is never reached at the call site. -/
def PixBuf.zipSamples (f : Int → Int → Int) : PixBuf → PixBuf → PixBuf
  | .g a, .g b => .g (List.zipWith (List.zipWith f) a b)
  | .c a, .c b => .c (List.zipWith (List.zipWith (List.zipWith f)) a b)
  | a, _ => a

/-- `np.roll(l, k)` along a list: the entry at index `i` of the result is
the input entry at index `(i - k) mod length`. -/
def rollList (k : Int) (l : List α) : List α :=
  l.rotate ((-k) % (l.length : Int)).toNat

/-- `np.roll(pixels, k, axis=0)`: rotate the outer (row) axis. -/
def PixBuf.rollAxis0 (k : Int) : PixBuf → PixBuf
  | .g rows => .g (rollList k rows)
  | .c rows => .c (rollList k rows)

/-- The encrypting swap step on one pixel: exchange channels 0 and 2 and
add the key to channel 1 mod 256 (lines 133-134 of the source, combined
per pixel; under the guard `shape[2] >= 3` every pixel of a well-formed
buffer matches the first pattern). -/
def swapEncPixel (key : Int) : List Int → List Int
  | a :: b :: c :: rest => c :: (b + key) % 256 :: a :: rest
  | p => p

/-- The decrypting swap step on one pixel: exchange channels 0 and 2 and
subtract the key from channel 1 mod 256 (lines 157-158 of the source). -/
def swapDecPixel (key : Int) : List Int → List Int
  | a :: b :: c :: rest => c :: (b - key) % 256 :: a :: rest
  | p => p

/-- The numpy `shape[2]` of a 3-dimensional array, read off the first pixel.
For a rectangular nonempty array this is the channel count; for an array
with no pixels the swap branch guarded by it rewrites nothing, so either
branch yields the same buffer. -/
def numChannels (rows : Img3) : Nat :=
  (((rows.head?).bind List.head?).map List.length).getD 0

/-- The final `np.clip(pixels, 0, 255)` of both transform functions
(the subsequent cast back to uint8 is the identity on the clipped range). -/
def clipBuf (B : PixBuf) : PixBuf := B.mapSamples clipSample

/-- Body of `encrypt_image_from_array` (lines 131-146): the five method
branches.  A method name matching no branch leaves the buffer unchanged -
the source raises no error on that path. -/
def encryptBody (noise B : PixBuf) (key : Int) (method : String) : PixBuf :=
  if method = "swap" then
    match B with
    | .c rows =>
        if 3 ≤ numChannels rows then
          .c (rows.map (List.map (swapEncPixel key)))
        else .c rows
    | .g rows => .g rows
  else if method = "xor" then
    B.mapSamples (xorSample key)
  else if method = "shift" then
    B.mapSamples fun s => (s * 2 ^ (key % 8).toNat) % 256
  else if method = "aes" then
    (B.rollAxis0 key).mapSamples fun s => (s + key * 3) % 256
  else if method = "steganography" then
    B.zipSamples (fun s n => lorSample (landSample 254 s) n) noise
  else B

/-- `encrypt_image_from_array` of the source.  The random draw
`np.random.randint(0, 2, pixels.shape)` of the steganography branch is an
explicit `noise` argument (a buffer of the same shape with samples in
{0,1}); every other branch ignores it. -/
def encrypt_image_from_array (noise B : PixBuf) (key : Int) (method : String) : PixBuf :=
  clipBuf (encryptBody noise B key method)

/-- Body of `decrypt_image_from_array` (lines 155-168): the five method
branches.  A method name matching no branch leaves the buffer unchanged -
the source raises no error on that path. -/
def decryptBody (B : PixBuf) (key : Int) (method : String) : PixBuf :=
  if method = "swap" then
    match B with
    | .c rows =>
        if 3 ≤ numChannels rows then
          .c (rows.map (List.map (swapDecPixel key)))
        else .c rows
    | .g rows => .g rows
  else if method = "xor" then
    B.mapSamples (xorSample key)
  else if method = "shift" then
    B.mapSamples fun s => (s / 2 ^ (key % 8).toNat) % 256
  else if method = "aes" then
    (B.rollAxis0 (-key)).mapSamples fun s => (s - key * 3) % 256
  else if method = "steganography" then
    B.mapSamples (landSample 254)
  else B

/-- `decrypt_image_from_array` of the source. -/
def decrypt_image_from_array (B : PixBuf) (key : Int) (method : String) : PixBuf :=
  clipBuf (decryptBody B key method)

/-- Grayscale reduction of `analyze_image` (lines 31-34): per-pixel channel
mean for 3-dimensional input, identity for 2-dimensional input.  Values are
exact rationals; numpy computes them in float64. -/
def grayOf : PixBuf → List (List ℚ)
  | .g rows => rows.map (List.map fun s : Int => (s : ℚ))
  | .c rows => rows.map (List.map fun p : List Int => (p.map fun s : Int => (s : ℚ)).sum / (p.length : ℚ))

/-- One-sided first difference of two adjacent rows (elementwise `y - x`). -/
def rowDiff (a b : List ℚ) : List ℚ := List.zipWith (fun x y => y - x) a b

/-- Central difference of the two rows around an interior row
(elementwise `(y - x) / 2`). -/
def rowCentral (a b : List ℚ) : List ℚ := List.zipWith (fun x y => (y - x) / 2) a b

/-- The trailing one-sided difference of `np.gradient`: difference of the
last two rows. -/
def lastRowDiff (g : List (List ℚ)) : List (List ℚ) :=
  match g.drop (g.length - 2) with
  | [a, b] => [rowDiff a b]
  | _ => []

/-- `np.gradient(gray)[0]` (line 48): first-order differences along axis 0,
one-sided at the first and last row and central in the interior.  Defined
only for arrays with at least two rows; `np.gradient` raises otherwise. -/
def gradAxis0 (g : List (List ℚ)) : List (List ℚ) :=
  match g with
  | r0 :: r1 :: _ => rowDiff r0 r1 :: (List.zipWith rowCentral g (g.drop 2) ++ lastRowDiff g)
  | _ => []

/-- The exactly-representable fields of the analysis dictionary.  The
`entropy` and `contrast` fields of the source are real-valued (a float
`log2` of the normalized histogram and a float square root of the luma
variance); no claim about `analyze_image` depends on their values, only on
whether the call succeeds, so they are not carried here. -/
structure AnalysisRaw where
  gray : List (List ℚ)
  brightness : ℚ
  edge_density : ℚ

/-- Total number of luma samples (`gray.size`). -/
def totalSize (g : List (List ℚ)) : Nat := (g.map List.length).sum

/-- `np.count_nonzero(edges > 10)` (line 49) for the axis-0 gradient. -/
def edgeCount (g : List (List ℚ)) : Nat :=
  ((gradAxis0 g).map fun r => (r.filter fun x => 10 < x).length).sum

/-- `analyze_image` of the source (lines 27-60).  The whole body is wrapped
in `try/except Exception: return None`.  For a buffer with at least one
channel, the only statement that can raise is `np.gradient(gray)` on line
48, which requires at least two elements along every axis of `gray`; the
histogram, entropy, contrast and brightness computations on lines 37-45 do
not raise (for rectangular input of shape `(h, w)` the axis-1 length is the
length of the first row).  So the call returns `None` exactly when `gray`
has fewer than 2 rows or fewer than 2 columns. -/
def analyze_image (B : PixBuf) : Option AnalysisRaw :=
  let g := grayOf B
  if 2 ≤ g.length ∧ 2 ≤ (g.head?.getD []).length then
    some { gray := g
           brightness := (g.map List.sum).sum / (totalSize g : ℚ)
           edge_density := (edgeCount g : ℚ) / (totalSize g : ℚ) }
  else none

/-- The complexity classification of line 56:
the chained conditional on line 56 of the source. -/
def complexityOf (entropy : ℚ) : String :=
  if 6 < entropy then "high" else if 4 < entropy then "medium" else "low"

/-- The fields of the analysis dictionary read by `recommend_method` and
`generate_smart_key`. -/
structure AnalysisDict where
  entropy : ℚ
  contrast : ℚ
  complexity : String

/-- `recommend_method` of the source (lines 62-70). -/
def recommend_method (analysis : AnalysisDict) : String :=
  if analysis.complexity = "high" then "aes"
  else if 50 < analysis.contrast then "xor"
  else "swap"

/-- The Python `int(...)` conversion: truncation toward zero. -/
def pyInt (q : ℚ) : Int := if q < 0 then -⌊-q⌋ else ⌊q⌋

/-- `generate_smart_key` of the source (lines 72-80):
`combined = int(base_key * entropy * contrast) % 256; max(1, combined)`.
The float products are modelled as exact rational products. -/
def generate_smart_key (analysis : AnalysisDict) (base_key : Int) : Int :=
  max 1 (pyInt ((base_key : ℚ) * analysis.entropy * analysis.contrast) % 256)

/-! ### List-level helper lemmas -/

theorem list_map_id_of {α : Type _} {f : α → α} :
    ∀ {l : List α}, (∀ x ∈ l, f x = x) → l.map f = l
  | [], _ => rfl
  | a :: t, h => by
      simp only [List.map_cons, List.cons.injEq]
      exact ⟨h a (List.mem_cons_self a t),
        list_map_id_of fun x hx => h x (List.mem_cons_of_mem a hx)⟩

theorem list_map_fix {α : Type _} {f : α → α} :
    ∀ {l : List α}, l.map f = l → ∀ x ∈ l, f x = x
  | [], _, x, hx => absurd hx (List.not_mem_nil x)
  | a :: t, h, x, hx => by
      simp only [List.map_cons, List.cons.injEq] at h
      rcases List.mem_cons.mp hx with rfl | hx2
      · exact h.1
      · exact list_map_fix h.2 x hx2

theorem list_map_map_comp {α : Type _} (f g : α → α) (l : List α) :
    (l.map g).map f = l.map fun x => f (g x) := by
  rw [List.map_map]
  rfl

theorem exists_of_mem_zipWith {α β γ : Type _} {f : α → β → γ} :
    ∀ {l1 : List α} {l2 : List β} {z : γ}, z ∈ List.zipWith f l1 l2 →
      ∃ x ∈ l1, ∃ y ∈ l2, z = f x y
  | a :: t1, b :: t2, z, hz => by
      rcases List.mem_cons.mp hz with rfl | hz2
      · exact ⟨a, List.mem_cons_self a t1, b, List.mem_cons_self b t2, rfl⟩
      · rcases exists_of_mem_zipWith hz2 with ⟨x, hx, y, hy, rfl⟩
        exact ⟨x, List.mem_cons_of_mem a hx, y, List.mem_cons_of_mem b hy, rfl⟩

/-! ### Buffer-level helper lemmas -/

theorem mapSamples_eq_self {P : Int → Prop} {f : Int → Int} {B : PixBuf}
    (hB : B.samplesIn P) (hf : ∀ s, P s → f s = s) : B.mapSamples f = B := by
  cases B with
  | g rows =>
      have hB2 : rowsAll2 P rows := hB
      simp only [PixBuf.mapSamples, PixBuf.g.injEq]
      exact list_map_id_of fun r hr => list_map_id_of fun s hs => hf s (hB2 r hr s hs)
  | c rows =>
      have hB3 : rowsAll3 P rows := hB
      simp only [PixBuf.mapSamples, PixBuf.c.injEq]
      exact list_map_id_of fun r hr => list_map_id_of fun p hp =>
        list_map_id_of fun s hs => hf s (hB3 r hr p hp s hs)

theorem mapSamples_fix {f : Int → Int} {B : PixBuf} (h : B.mapSamples f = B) :
    B.samplesIn fun s => f s = s := by
  cases B with
  | g rows =>
      simp only [PixBuf.mapSamples, PixBuf.g.injEq] at h
      intro r hr s hs
      exact list_map_fix (list_map_fix h r hr) s hs
  | c rows =>
      simp only [PixBuf.mapSamples, PixBuf.c.injEq] at h
      intro r hr p hp s hs
      exact list_map_fix (list_map_fix (list_map_fix h r hr) p hp) s hs

theorem mapSamples_mapSamples (f g : Int → Int) (B : PixBuf) :
    (B.mapSamples g).mapSamples f = B.mapSamples fun s => f (g s) := by
  cases B with
  | g rows =>
      simp only [PixBuf.mapSamples, PixBuf.g.injEq]
      rw [List.map_map]
      exact List.map_congr_left fun r _ => list_map_map_comp f g r
  | c rows =>
      simp only [PixBuf.mapSamples, PixBuf.c.injEq]
      rw [List.map_map]
      refine List.map_congr_left fun r _ => ?_
      show (r.map (List.map g)).map (List.map f) = r.map (List.map fun s => f (g s))
      rw [List.map_map]
      exact List.map_congr_left fun p _ => list_map_map_comp f g p

theorem mapSamples_congr {P : Int → Prop} {f g : Int → Int} {B : PixBuf}
    (hB : B.samplesIn P) (h : ∀ s, P s → f s = g s) :
    B.mapSamples f = B.mapSamples g := by
  cases B with
  | g rows =>
      have hB2 : rowsAll2 P rows := hB
      simp only [PixBuf.mapSamples, PixBuf.g.injEq]
      exact List.map_congr_left fun r hr =>
        List.map_congr_left fun s hs => h s (hB2 r hr s hs)
  | c rows =>
      have hB3 : rowsAll3 P rows := hB
      simp only [PixBuf.mapSamples, PixBuf.c.injEq]
      exact List.map_congr_left fun r hr => List.map_congr_left fun p hp =>
        List.map_congr_left fun s hs => h s (hB3 r hr p hp s hs)

theorem samplesIn_mapSamples {P Q : Int → Prop} {f : Int → Int} {B : PixBuf}
    (hB : B.samplesIn P) (hf : ∀ s, P s → Q (f s)) :
    (B.mapSamples f).samplesIn Q := by
  cases B with
  | g rows =>
      have hB2 : rowsAll2 P rows := hB
      intro r hr s hs
      rcases List.mem_map.mp hr with ⟨r0, hr0, rfl⟩
      rcases List.mem_map.mp hs with ⟨s0, hs0, rfl⟩
      exact hf s0 (hB2 r0 hr0 s0 hs0)
  | c rows =>
      have hB3 : rowsAll3 P rows := hB
      intro r hr p hp s hs
      rcases List.mem_map.mp hr with ⟨r0, hr0, rfl⟩
      rcases List.mem_map.mp hp with ⟨p0, hp0, rfl⟩
      rcases List.mem_map.mp hs with ⟨s0, hs0, rfl⟩
      exact hf s0 (hB3 r0 hr0 p0 hp0 s0 hs0)

theorem samplesIn_mono {P Q : Int → Prop} {B : PixBuf}
    (hB : B.samplesIn P) (h : ∀ s, P s → Q s) : B.samplesIn Q := by
  cases B with
  | g rows =>
      have hB2 : rowsAll2 P rows := hB
      intro r hr s hs
      exact h s (hB2 r hr s hs)
  | c rows =>
      have hB3 : rowsAll3 P rows := hB
      intro r hr p hp s hs
      exact h s (hB3 r hr p hp s hs)

theorem samplesIn_and {P Q : Int → Prop} {B : PixBuf}
    (hP : B.samplesIn P) (hQ : B.samplesIn Q) : B.samplesIn fun s => P s ∧ Q s := by
  cases B with
  | g rows =>
      have h1 : rowsAll2 P rows := hP
      have h2 : rowsAll2 Q rows := hQ
      intro r hr s hs
      exact ⟨h1 r hr s hs, h2 r hr s hs⟩
  | c rows =>
      have h1 : rowsAll3 P rows := hP
      have h2 : rowsAll3 Q rows := hQ
      intro r hr p hp s hs
      exact ⟨h1 r hr p hp s hs, h2 r hr p hp s hs⟩

theorem clipSample_eq_self {s : Int} (h0 : 0 ≤ s) (h255 : s ≤ 255) : clipSample s = s := by
  unfold clipSample
  rw [min_eq_right h255, max_eq_right h0]

theorem clipBuf_eq_self {B : PixBuf} (hB : B.InRange) : clipBuf B = B :=
  mapSamples_eq_self hB fun _ hs => clipSample_eq_self hs.1 hs.2

/-! ### Roll helper lemmas -/

theorem rollList_map {α β : Type _} (f : α → β) (k : Int) (l : List α) :
    rollList k (l.map f) = (rollList k l).map f := by
  unfold rollList
  rw [List.length_map]
  exact (List.map_rotate f l _).symm

theorem rollAxis0_mapSamples (f : Int → Int) (k : Int) (B : PixBuf) :
    (B.mapSamples f).rollAxis0 k = (B.rollAxis0 k).mapSamples f := by
  cases B with
  | g rows =>
      simp only [PixBuf.mapSamples, PixBuf.rollAxis0, PixBuf.g.injEq]
      exact rollList_map (List.map f) k rows
  | c rows =>
      simp only [PixBuf.mapSamples, PixBuf.rollAxis0, PixBuf.c.injEq]
      exact rollList_map (List.map (List.map f)) k rows

theorem rollList_cancel {α : Type _} (k : Int) (l : List α) :
    rollList (-k) (rollList k l) = l := by
  unfold rollList
  rw [List.length_rotate, neg_neg, List.rotate_rotate]
  rcases Nat.eq_zero_or_pos l.length with h0 | hpos
  · rw [List.length_eq_zero.mp h0]
    simp
  · have hn0 : (0 : Int) < (l.length : Int) := by exact_mod_cast hpos
    have h1 : 0 ≤ -k % (l.length : Int) := Int.emod_nonneg _ (by omega)
    have h2 : 0 ≤ k % (l.length : Int) := Int.emod_nonneg _ (by omega)
    have h3 : -k % (l.length : Int) < (l.length : Int) := Int.emod_lt_of_pos _ hn0
    have h4 : k % (l.length : Int) < (l.length : Int) := Int.emod_lt_of_pos _ hn0
    have hadd : (-k % (l.length : Int) + k % (l.length : Int)) % (l.length : Int) = 0 := by
      rw [← Int.add_emod]
      simp
    have hcases : (-k % (l.length : Int)).toNat + (k % (l.length : Int)).toNat = 0 ∨
        (-k % (l.length : Int)).toNat + (k % (l.length : Int)).toNat = l.length := by
      by_cases hx : -k % (l.length : Int) + k % (l.length : Int) < (l.length : Int)
      · left
        have hid := Int.emod_eq_of_lt (by omega) hx
        omega
      · right
        have h5 : (-k % (l.length : Int) + k % (l.length : Int) - (l.length : Int)) %
            (l.length : Int) = 0 := by
          rw [Int.sub_emod, hadd, Int.emod_self]
          simp
        have h6 : -k % (l.length : Int) + k % (l.length : Int) - (l.length : Int) =
            (-k % (l.length : Int) + k % (l.length : Int) - (l.length : Int)) %
              (l.length : Int) :=
          (Int.emod_eq_of_lt (by omega) (by omega)).symm
        omega
    rcases hcases with hc | hc
    · rw [hc, List.rotate_zero]
    · rw [hc, List.rotate_length]

theorem rollAxis0_cancel (k : Int) (B : PixBuf) :
    (B.rollAxis0 k).rollAxis0 (-k) = B := by
  cases B with
  | g rows =>
      simp only [PixBuf.rollAxis0, PixBuf.g.injEq]
      exact rollList_cancel k rows
  | c rows =>
      simp only [PixBuf.rollAxis0, PixBuf.c.injEq]
      exact rollList_cancel k rows

theorem samplesIn_rollAxis0 {P : Int → Prop} {B : PixBuf} (k : Int)
    (hB : B.samplesIn P) : (B.rollAxis0 k).samplesIn P := by
  cases B with
  | g rows =>
      have hB2 : rowsAll2 P rows := hB
      intro r hr s hs
      exact hB2 r (List.mem_rotate.mp hr) s hs
  | c rows =>
      have hB3 : rowsAll3 P rows := hB
      intro r hr p hp s hs
      exact hB3 r (List.mem_rotate.mp hr) p hp s hs

/-! ### Sample-level helper lemmas -/

theorem xorSample_xorSample {k s : Int} (hs : 0 ≤ s) :
    xorSample k (xorSample k s) = s := by
  unfold xorSample
  rw [Int.toNat_natCast, Nat.xor_assoc, Nat.xor_self, Nat.xor_zero,
    Int.toNat_of_nonneg hs]

theorem xorSample_range {k s : Int} (h0 : 0 ≤ s) (h255 : s ≤ 255)
    (hk0 : 0 ≤ k) (hk255 : k ≤ 255) :
    0 ≤ xorSample k s ∧ xorSample k s ≤ 255 := by
  unfold xorSample
  have hb : s.toNat ^^^ k.toNat < 256 := by
    have h1 : s.toNat < 2 ^ 8 := by omega
    have h2 : k.toNat < 2 ^ 8 := by omega
    exact Nat.xor_lt_two_pow h1 h2
  omega

theorem swapEncPixel_length (k : Int) (p : List Int) :
    (swapEncPixel k p).length = p.length := by
  rcases p with _ | ⟨a, _ | ⟨b, _ | ⟨c, rest⟩⟩⟩ <;> rfl

theorem swapDecPixel_length (k : Int) (p : List Int) :
    (swapDecPixel k p).length = p.length := by
  rcases p with _ | ⟨a, _ | ⟨b, _ | ⟨c, rest⟩⟩⟩ <;> rfl

theorem swapDecPixel_swapEncPixel {k : Int} {p : List Int}
    (hp : ∀ s ∈ p, 0 ≤ s ∧ s ≤ 255) :
    swapDecPixel k (swapEncPixel k p) = p := by
  rcases p with _ | ⟨a, _ | ⟨b, _ | ⟨c, rest⟩⟩⟩
  · rfl
  · rfl
  · rfl
  · show a :: ((b + k) % 256 - k) % 256 :: c :: rest = a :: b :: c :: rest
    have hb := hp b (by simp)
    have hmod : ((b + k) % 256 - k) % 256 = b := by omega
    rw [hmod]

theorem mem_swapEncPixel_range {k : Int} {p : List Int}
    (hp : ∀ s ∈ p, 0 ≤ s ∧ s ≤ 255) :
    ∀ s ∈ swapEncPixel k p, 0 ≤ s ∧ s ≤ 255 := by
  rcases p with _ | ⟨a, _ | ⟨b, _ | ⟨c, rest⟩⟩⟩
  · exact hp
  · exact hp
  · exact hp
  · intro s hs
    have ha := hp a (by simp)
    have hc := hp c (by simp)
    rcases List.mem_cons.mp hs with rfl | hs2
    · exact hc
    rcases List.mem_cons.mp hs2 with rfl | hs3
    · constructor
      · exact Int.emod_nonneg _ (by omega)
      · have := Int.emod_lt_of_pos (b + k) (show (0:Int) < 256 by omega)
        omega
    rcases List.mem_cons.mp hs3 with rfl | hs4
    · exact ha
    · exact hp s (by simp [hs4])

theorem mem_swapDecPixel_range {k : Int} {p : List Int}
    (hp : ∀ s ∈ p, 0 ≤ s ∧ s ≤ 255) :
    ∀ s ∈ swapDecPixel k p, 0 ≤ s ∧ s ≤ 255 := by
  rcases p with _ | ⟨a, _ | ⟨b, _ | ⟨c, rest⟩⟩⟩
  · exact hp
  · exact hp
  · exact hp
  · intro s hs
    have ha := hp a (by simp)
    have hc := hp c (by simp)
    rcases List.mem_cons.mp hs with rfl | hs2
    · exact hc
    rcases List.mem_cons.mp hs2 with rfl | hs3
    · constructor
      · exact Int.emod_nonneg _ (by omega)
      · have := Int.emod_lt_of_pos (b - k) (show (0:Int) < 256 by omega)
        omega
    rcases List.mem_cons.mp hs3 with rfl | hs4
    · exact ha
    · exact hp s (by simp [hs4])

theorem numChannels_map {f : List Int → List Int}
    (hf : ∀ p, (f p).length = p.length) (rows : Img3) :
    numChannels (rows.map (List.map f)) = numChannels rows := by
  rcases rows with _ | ⟨r, rest⟩
  · rfl
  · rcases r with _ | ⟨p, prest⟩
    · rfl
    · simp [numChannels, hf]

theorem nat_land_254 : ∀ n < 256, n &&& 254 = n - n % 2 := by decide

theorem nat_land_254_lt : ∀ n < 256, n &&& 254 < 256 := by decide

theorem nat_lor_land_lt : ∀ n < 256, ∀ m < 2, (n &&& 254) ||| m < 256 := by decide

theorem landSample_254 {s : Int} (h0 : 0 ≤ s) (h255 : s ≤ 255) :
    landSample 254 s = s - s % 2 := by
  unfold landSample
  have hn : s.toNat < 256 := by omega
  have h254 : (254 : Int).toNat = 254 := rfl
  rw [h254, nat_land_254 s.toNat hn]
  omega

theorem landSample_254_range {s : Int} (h0 : 0 ≤ s) (h255 : s ≤ 255) :
    0 ≤ landSample 254 s ∧ landSample 254 s ≤ 255 := by
  unfold landSample
  have hn : s.toNat < 256 := by omega
  have h254 : (254 : Int).toNat = 254 := rfl
  rw [h254]
  have := nat_land_254_lt s.toNat hn
  omega

theorem stegoSample_range {s n : Int} (h0 : 0 ≤ s) (h255 : s ≤ 255)
    (hn : n = 0 ∨ n = 1) :
    0 ≤ lorSample (landSample 254 s) n ∧ lorSample (landSample 254 s) n ≤ 255 := by
  unfold lorSample landSample
  have hsn : s.toNat < 256 := by omega
  have h254 : (254 : Int).toNat = 254 := rfl
  rw [h254, Int.toNat_natCast]
  have hn2 : n.toNat < 2 := by omega
  have := nat_lor_land_lt s.toNat hsn n.toNat hn2
  omega

theorem samplesIn_zipSamples {P Q R : Int → Prop} {f : Int → Int → Int} {A B : PixBuf}
    (hA : A.samplesIn P) (hB : B.samplesIn Q)
    (hf : ∀ x y, P x → Q y → R (f x y)) (hPR : ∀ x, P x → R x) :
    (A.zipSamples f B).samplesIn R := by
  cases A with
  | g a =>
      cases B with
      | g b =>
          have hA2 : rowsAll2 P a := hA
          have hB2 : rowsAll2 Q b := hB
          intro r hr s hs
          rcases exists_of_mem_zipWith hr with ⟨ra, hra, rb, hrb, rfl⟩
          rcases exists_of_mem_zipWith hs with ⟨x, hx, y, hy, rfl⟩
          exact hf x y (hA2 ra hra x hx) (hB2 rb hrb y hy)
      | c b => exact samplesIn_mono hA hPR
  | c a =>
      cases B with
      | g b => exact samplesIn_mono hA hPR
      | c b =>
          have hA3 : rowsAll3 P a := hA
          have hB3 : rowsAll3 Q b := hB
          intro r hr p hp s hs
          rcases exists_of_mem_zipWith hr with ⟨ra, hra, rb, hrb, rfl⟩
          rcases exists_of_mem_zipWith hp with ⟨pa, hpa, pb, hpb, rfl⟩
          rcases exists_of_mem_zipWith hs with ⟨x, hx, y, hy, rfl⟩
          exact hf x y (hA3 ra hra pa hpa x hx) (hB3 rb hrb pb hpb y hy)

/-! ### Shape helper lemmas -/

theorem hasShape_cases {B : PixBuf} {sh : List Nat} (hB : B.HasShape sh) :
    (∃ rows h w, B = .g rows ∧ sh = [h, w] ∧ RowsShape2 rows h w) ∨
    (∃ rows h w ch, B = .c rows ∧ sh = [h, w, ch] ∧ RowsShape3 rows h w ch) := by
  cases B with
  | g rows =>
      rcases sh with _ | ⟨a, _ | ⟨b, _ | ⟨x, t⟩⟩⟩
      · exact False.elim hB
      · exact False.elim hB
      · exact Or.inl ⟨rows, a, b, rfl, rfl, hB⟩
      · exact False.elim hB
  | c rows =>
      rcases sh with _ | ⟨a, _ | ⟨b, _ | ⟨x, _ | ⟨y, t⟩⟩⟩⟩
      · exact False.elim hB
      · exact False.elim hB
      · exact False.elim hB
      · exact Or.inr ⟨rows, a, b, x, rfl, rfl, hB⟩
      · exact False.elim hB

theorem rowsShape2_map {f : Int → Int} {rows : Img2} {h w : Nat}
    (hs : RowsShape2 rows h w) : RowsShape2 (rows.map (List.map f)) h w := by
  constructor
  · rw [List.length_map]
    exact hs.1
  · intro r hr
    rcases List.mem_map.mp hr with ⟨r0, hr0, rfl⟩
    rw [List.length_map]
    exact hs.2 r0 hr0

theorem rowsShape3_map {f : Int → Int} {rows : Img3} {h w ch : Nat}
    (hs : RowsShape3 rows h w ch) :
    RowsShape3 (rows.map (List.map (List.map f))) h w ch := by
  constructor
  · rw [List.length_map]
    exact hs.1
  · intro r hr
    rcases List.mem_map.mp hr with ⟨r0, hr0, rfl⟩
    constructor
    · rw [List.length_map]
      exact (hs.2 r0 hr0).1
    · intro p hp
      rcases List.mem_map.mp hp with ⟨p0, hp0, rfl⟩
      rw [List.length_map]
      exact (hs.2 r0 hr0).2 p0 hp0

theorem rowsShape3_mapPixel {f : List Int → List Int}
    (hf : ∀ p, (f p).length = p.length) {rows : Img3} {h w ch : Nat}
    (hs : RowsShape3 rows h w ch) :
    RowsShape3 (rows.map (List.map f)) h w ch := by
  constructor
  · rw [List.length_map]
    exact hs.1
  · intro r hr
    rcases List.mem_map.mp hr with ⟨r0, hr0, rfl⟩
    constructor
    · rw [List.length_map]
      exact (hs.2 r0 hr0).1
    · intro p hp
      rcases List.mem_map.mp hp with ⟨p0, hp0, rfl⟩
      rw [hf p0]
      exact (hs.2 r0 hr0).2 p0 hp0

theorem rowsShape2_rotate {rows : Img2} {h w : Nat} (n : Nat)
    (hs : RowsShape2 rows h w) : RowsShape2 (rows.rotate n) h w := by
  constructor
  · rw [List.length_rotate]
    exact hs.1
  · intro r hr
    exact hs.2 r (List.mem_rotate.mp hr)

theorem rowsShape3_rotate {rows : Img3} {h w ch : Nat} (n : Nat)
    (hs : RowsShape3 rows h w ch) : RowsShape3 (rows.rotate n) h w ch := by
  constructor
  · rw [List.length_rotate]
    exact hs.1
  · intro r hr
    exact hs.2 r (List.mem_rotate.mp hr)

theorem rowsShape2_zipWith {f : Int → Int → Int} {a b : Img2} {h w : Nat}
    (ha : RowsShape2 a h w) (hb : RowsShape2 b h w) :
    RowsShape2 (List.zipWith (List.zipWith f) a b) h w := by
  constructor
  · rw [List.length_zipWith, ha.1, hb.1, min_self]
  · intro r hr
    rcases exists_of_mem_zipWith hr with ⟨ra, hra, rb, hrb, rfl⟩
    rw [List.length_zipWith, ha.2 ra hra, hb.2 rb hrb, min_self]

theorem rowsShape3_zipWith {f : Int → Int → Int} {a b : Img3} {h w ch : Nat}
    (ha : RowsShape3 a h w ch) (hb : RowsShape3 b h w ch) :
    RowsShape3 (List.zipWith (List.zipWith (List.zipWith f)) a b) h w ch := by
  constructor
  · rw [List.length_zipWith, ha.1, hb.1, min_self]
  · intro r hr
    rcases exists_of_mem_zipWith hr with ⟨ra, hra, rb, hrb, rfl⟩
    constructor
    · rw [List.length_zipWith, (ha.2 ra hra).1, (hb.2 rb hrb).1, min_self]
    · intro p hp
      rcases exists_of_mem_zipWith hp with ⟨pa, hpa, pb, hpb, rfl⟩
      rw [List.length_zipWith, (ha.2 ra hra).2 pa hpa, (hb.2 rb hrb).2 pb hpb, min_self]

theorem hasShape_mapSamples {B : PixBuf} {sh : List Nat} (f : Int → Int)
    (hB : B.HasShape sh) : (B.mapSamples f).HasShape sh := by
  rcases hasShape_cases hB with ⟨rows, h, w, rfl, rfl, hs⟩ | ⟨rows, h, w, ch, rfl, rfl, hs⟩
  · exact rowsShape2_map hs
  · exact rowsShape3_map hs

theorem hasShape_rollAxis0 {B : PixBuf} {sh : List Nat} (k : Int)
    (hB : B.HasShape sh) : (B.rollAxis0 k).HasShape sh := by
  rcases hasShape_cases hB with ⟨rows, h, w, rfl, rfl, hs⟩ | ⟨rows, h, w, ch, rfl, rfl, hs⟩
  · exact rowsShape2_rotate _ hs
  · exact rowsShape3_rotate _ hs

theorem hasShape_zipSamples {A B : PixBuf} {sh : List Nat} (f : Int → Int → Int)
    (hA : A.HasShape sh) (hB : B.HasShape sh) :
    (A.zipSamples f B).HasShape sh := by
  rcases hasShape_cases hA with ⟨ra, h, w, rfl, rfl, hsa⟩ | ⟨ra, h, w, ch, rfl, rfl, hsa⟩
  · cases B with
    | g rb =>
        have hsb : RowsShape2 rb h w := hB
        exact rowsShape2_zipWith hsa hsb
    | c rb => exact False.elim hB
  · cases B with
    | g rb => exact False.elim hB
    | c rb =>
        have hsb : RowsShape3 rb h w ch := hB
        exact rowsShape3_zipWith hsa hsb

/-! ### Branch unfolding lemmas (definitional) -/

theorem encrypt_swap_g_eq (noise : PixBuf) (rows : Img2) (k : Int) :
    encrypt_image_from_array noise (.g rows) k "swap" = clipBuf (.g rows) := rfl

theorem encrypt_swap_c_eq (noise : PixBuf) (rows : Img3) (k : Int) :
    encrypt_image_from_array noise (.c rows) k "swap" =
      clipBuf (if 3 ≤ numChannels rows then
        PixBuf.c (rows.map (List.map (swapEncPixel k))) else PixBuf.c rows) := rfl

theorem decrypt_swap_g_eq (rows : Img2) (k : Int) :
    decrypt_image_from_array (.g rows) k "swap" = clipBuf (.g rows) := rfl

theorem decrypt_swap_c_eq (rows : Img3) (k : Int) :
    decrypt_image_from_array (.c rows) k "swap" =
      clipBuf (if 3 ≤ numChannels rows then
        PixBuf.c (rows.map (List.map (swapDecPixel k))) else PixBuf.c rows) := rfl

theorem encrypt_xor_eq (noise B : PixBuf) (k : Int) :
    encrypt_image_from_array noise B k "xor" = clipBuf (B.mapSamples (xorSample k)) := rfl

theorem decrypt_xor_eq (B : PixBuf) (k : Int) :
    decrypt_image_from_array B k "xor" = clipBuf (B.mapSamples (xorSample k)) := rfl

theorem encrypt_shift_eq (noise B : PixBuf) (k : Int) :
    encrypt_image_from_array noise B k "shift" =
      clipBuf (B.mapSamples fun s => (s * 2 ^ (k % 8).toNat) % 256) := rfl

theorem decrypt_shift_eq (B : PixBuf) (k : Int) :
    decrypt_image_from_array B k "shift" =
      clipBuf (B.mapSamples fun s => (s / 2 ^ (k % 8).toNat) % 256) := rfl

theorem encrypt_aes_eq (noise B : PixBuf) (k : Int) :
    encrypt_image_from_array noise B k "aes" =
      clipBuf ((B.rollAxis0 k).mapSamples fun s => (s + k * 3) % 256) := rfl

theorem decrypt_aes_eq (B : PixBuf) (k : Int) :
    decrypt_image_from_array B k "aes" =
      clipBuf ((B.rollAxis0 (-k)).mapSamples fun s => (s - k * 3) % 256) := rfl

theorem encrypt_steg_eq (noise B : PixBuf) (k : Int) :
    encrypt_image_from_array noise B k "steganography" =
      clipBuf (B.zipSamples (fun s n => lorSample (landSample 254 s) n) noise) := rfl

theorem decrypt_steg_eq (B : PixBuf) (k : Int) :
    decrypt_image_from_array B k "steganography" =
      clipBuf (B.mapSamples (landSample 254)) := rfl

/-! ### Round-trip helper lemmas -/

theorem xor_roundtrip {B : PixBuf} (noise : PixBuf) {k : Int} (hB : B.InRange)
    (hk1 : 1 ≤ k) (hk255 : k ≤ 255) :
    decrypt_image_from_array (encrypt_image_from_array noise B k "xor") k "xor" = B := by
  rw [encrypt_xor_eq, decrypt_xor_eq]
  have h1 : (B.mapSamples (xorSample k)).InRange :=
    samplesIn_mapSamples hB fun s hs => xorSample_range hs.1 hs.2 (by omega) hk255
  rw [clipBuf_eq_self h1]
  have hstep : (B.mapSamples (xorSample k)).mapSamples (xorSample k) = B := by
    rw [mapSamples_mapSamples]
    exact mapSamples_eq_self hB fun s hs => xorSample_xorSample hs.1
  rw [hstep]
  exact clipBuf_eq_self hB

theorem swap_roundtrip {B : PixBuf} (noise : PixBuf) {k : Int} (hB : B.InRange) :
    decrypt_image_from_array (encrypt_image_from_array noise B k "swap") k "swap" = B := by
  cases B with
  | g rows =>
      rw [encrypt_swap_g_eq, clipBuf_eq_self hB, decrypt_swap_g_eq]
      exact clipBuf_eq_self hB
  | c rows =>
      have hB3 : rowsAll3 (fun s => 0 ≤ s ∧ s ≤ 255) rows := hB
      by_cases hch : 3 ≤ numChannels rows
      · rw [encrypt_swap_c_eq, if_pos hch]
        have h1 : (PixBuf.c (rows.map (List.map (swapEncPixel k)))).InRange := by
          intro r hr p hp s hs
          rcases List.mem_map.mp hr with ⟨r0, hr0, rfl⟩
          rcases List.mem_map.mp hp with ⟨p0, hp0, rfl⟩
          exact mem_swapEncPixel_range (fun t ht => hB3 r0 hr0 p0 hp0 t ht) s hs
        rw [clipBuf_eq_self h1, decrypt_swap_c_eq]
        have hch2 : 3 ≤ numChannels (rows.map (List.map (swapEncPixel k))) := by
          rw [numChannels_map (swapEncPixel_length k)]
          exact hch
        rw [if_pos hch2]
        have hcomp : (rows.map (List.map (swapEncPixel k))).map (List.map (swapDecPixel k))
            = rows := by
          rw [List.map_map]
          refine list_map_id_of fun r hr => ?_
          show (r.map (swapEncPixel k)).map (swapDecPixel k) = r
          rw [List.map_map]
          refine list_map_id_of fun p hp => ?_
          show swapDecPixel k (swapEncPixel k p) = p
          exact swapDecPixel_swapEncPixel fun s hs => hB3 r hr p hp s hs
        rw [hcomp]
        exact clipBuf_eq_self hB
      · rw [encrypt_swap_c_eq, if_neg hch, clipBuf_eq_self hB, decrypt_swap_c_eq, if_neg hch]
        exact clipBuf_eq_self hB

theorem aes_roundtrip {B : PixBuf} (noise : PixBuf) {k : Int} (hB : B.InRange) :
    decrypt_image_from_array (encrypt_image_from_array noise B k "aes") k "aes" = B := by
  rw [encrypt_aes_eq, decrypt_aes_eq]
  have h1 : ((B.rollAxis0 k).mapSamples fun s => (s + k * 3) % 256).InRange :=
    samplesIn_mapSamples (samplesIn_rollAxis0 k hB) fun s hs =>
      ⟨Int.emod_nonneg _ (by omega), by
        have := Int.emod_lt_of_pos (s + k * 3) (show (0:Int) < 256 by omega)
        omega⟩
  rw [clipBuf_eq_self h1]
  have hstep : (((B.rollAxis0 k).mapSamples fun s => (s + k * 3) % 256).rollAxis0
      (-k)).mapSamples (fun s => (s - k * 3) % 256) = B := by
    rw [rollAxis0_mapSamples, rollAxis0_cancel, mapSamples_mapSamples]
    refine mapSamples_eq_self hB fun s hs => ?_
    show ((s + k * 3) % 256 - k * 3) % 256 = s
    omega
  rw [hstep]
  exact clipBuf_eq_self hB

theorem shift_sample_roundtrip (sh : Nat) (hsh : sh < 8) (s : Int)
    (_hs0 : 0 ≤ s) (_hs255 : s ≤ 255) :
    (s * 2 ^ sh) % 256 / 2 ^ sh % 256 = s % 2 ^ (8 - sh) := by
  interval_cases sh <;> norm_num <;> omega

theorem emod_two_pow_range (s : Int) (m : Nat) (hm : m ≤ 8) :
    0 ≤ s % 2 ^ m ∧ s % 2 ^ m ≤ 255 := by
  have hpos : (0 : Int) < 2 ^ m := by positivity
  have hle : (2 : Int) ^ m ≤ 2 ^ 8 := by
    apply pow_le_pow_right₀ <;> norm_num
    exact hm
  have h1 := Int.emod_nonneg s (show (2:Int) ^ m ≠ 0 by omega)
  have h2 := Int.emod_lt_of_pos s hpos
  norm_num at hle
  omega

theorem shift_roundtrip_eq {B : PixBuf} (noise : PixBuf) (k : Int) (hB : B.InRange) :
    decrypt_image_from_array (encrypt_image_from_array noise B k "shift") k "shift" =
      B.mapSamples fun s => s % 2 ^ (8 - (k % 8).toNat) := by
  rw [encrypt_shift_eq, decrypt_shift_eq]
  have h1 : (B.mapSamples fun s => (s * 2 ^ (k % 8).toNat) % 256).InRange :=
    samplesIn_mapSamples hB fun s hs =>
      ⟨Int.emod_nonneg _ (by omega), by
        have := Int.emod_lt_of_pos (s * 2 ^ (k % 8).toNat) (show (0:Int) < 256 by omega)
        omega⟩
  rw [clipBuf_eq_self h1]
  have hstep : (B.mapSamples fun s => (s * 2 ^ (k % 8).toNat) % 256).mapSamples
      (fun s => (s / 2 ^ (k % 8).toNat) % 256) =
      B.mapSamples fun s => s % 2 ^ (8 - (k % 8).toNat) := by
    rw [mapSamples_mapSamples]
    exact mapSamples_congr hB fun s hs =>
      shift_sample_roundtrip (k % 8).toNat (by omega) s hs.1 hs.2
  rw [hstep]
  exact clipBuf_eq_self
    (samplesIn_mapSamples hB fun s hs => emod_two_pow_range s _ (by omega))

theorem hasShape_g_elim {rows : Img2} {sh : List Nat}
    (hB : (PixBuf.g rows).HasShape sh) :
    ∃ h w, sh = [h, w] ∧ RowsShape2 rows h w := by
  rcases sh with _ | ⟨a, _ | ⟨b, _ | ⟨x, t⟩⟩⟩
  · exact False.elim hB
  · exact False.elim hB
  · exact ⟨a, b, rfl, hB⟩
  · exact False.elim hB

theorem hasShape_c_elim {rows : Img3} {sh : List Nat}
    (hB : (PixBuf.c rows).HasShape sh) :
    ∃ h w ch, sh = [h, w, ch] ∧ RowsShape3 rows h w ch := by
  rcases sh with _ | ⟨a, _ | ⟨b, _ | ⟨x, _ | ⟨y, t⟩⟩⟩⟩
  · exact False.elim hB
  · exact False.elim hB
  · exact False.elim hB
  · exact ⟨a, b, x, rfl, hB⟩
  · exact False.elim hB

/-! ### Claim C1 -/

/-- C1: for every pixel buffer `B` (of either dimensionality, any channel
count) and every key `k` in [1,255], the xor, swap and aes methods
round-trip bit-exactly: `backward(forward(B,k,m),k,m) = B`.  For swap this
includes buffers with fewer than 3 channels, where the guarded swap/offset
step is a no-op in both directions. -/
theorem C1_roundtrip_xor_swap_aes (B noise : PixBuf) (k : Int)
    (hB : B.InRange) (hk1 : 1 ≤ k) (hk255 : k ≤ 255) :
    decrypt_image_from_array (encrypt_image_from_array noise B k "xor") k "xor" = B ∧
    decrypt_image_from_array (encrypt_image_from_array noise B k "swap") k "swap" = B ∧
    decrypt_image_from_array (encrypt_image_from_array noise B k "aes") k "aes" = B :=
  ⟨xor_roundtrip noise hB hk1 hk255, swap_roundtrip noise hB, aes_roundtrip noise hB⟩

/-- Witness for C1 at a concrete 2-channel-free input: a 1-row 3-channel
color buffer and key 129. -/
theorem C1_witness :
    decrypt_image_from_array (encrypt_image_from_array (PixBuf.g [[0]])
        (PixBuf.c [[[10, 20, 30], [40, 250, 60]]]) 129 "swap") 129 "swap" =
      PixBuf.c [[[10, 20, 30], [40, 250, 60]]] :=
  (C1_roundtrip_xor_swap_aes (PixBuf.c [[[10, 20, 30], [40, 250, 60]]]) (PixBuf.g [[0]]) 129
    (by simp [PixBuf.InRange, PixBuf.samplesIn, rowsAll3])
    (by norm_num) (by norm_num)).2.1

/-! ### Claim C2 -/

/-- C2 counterexample: the claim states that for every buffer `B` and key
`k`, the shift round-trip equals `B` if and only if `k mod 8 = 0`.  At the
all-zero 1-by-1 buffer with key 1 the round-trip is exact although
`1 mod 8` is not 0, so the stated iff fails. -/
theorem C2_counterexample_shift :
    decrypt_image_from_array (encrypt_image_from_array (PixBuf.g [[0]])
        (PixBuf.g [[0]]) 1 "shift") 1 "shift" = PixBuf.g [[0]] ∧
    ¬((1 : Int) % 8 = 0) := by
  constructor
  · rfl
  · decide

/-- C2 (amended): the shift round-trip maps every sample `s` to
`s mod 2 ^ (8 - (k mod 8))`.  Hence the round-trip is exact whenever
`k mod 8 = 0`, and in general it equals `B` if and only if every sample of
`B` is below `2 ^ (8 - (k mod 8))` - equivalently, it differs from `B`
exactly at the samples whose high bits were shifted out, which exist only
when `k mod 8` is nonzero and `B` has a sample at or above the
threshold. -/
theorem C2_shift_roundtrip (B noise : PixBuf) (k : Int)
    (hB : B.InRange) (_hk1 : 1 ≤ k) (_hk255 : k ≤ 255) :
    decrypt_image_from_array (encrypt_image_from_array noise B k "shift") k "shift" =
      B.mapSamples (fun s => s % 2 ^ (8 - (k % 8).toNat)) ∧
    (k % 8 = 0 →
      decrypt_image_from_array (encrypt_image_from_array noise B k "shift") k "shift" = B) ∧
    (decrypt_image_from_array (encrypt_image_from_array noise B k "shift") k "shift" = B ↔
      B.samplesIn fun s => s < 2 ^ (8 - (k % 8).toNat)) := by
  have hmain := shift_roundtrip_eq noise k hB
  refine ⟨hmain, ?_, ?_, ?_⟩
  · intro h0
    rw [hmain]
    have h8 : 8 - (k % 8).toNat = 8 := by omega
    rw [h8]
    exact mapSamples_eq_self hB fun s hs => by
      show s % 2 ^ 8 = s
      omega
  · intro h
    rw [hmain] at h
    have hfix := mapSamples_fix h
    refine samplesIn_mono (samplesIn_and hfix hB) fun s hs => ?_
    have hpos : (0 : Int) < 2 ^ (8 - (k % 8).toNat) := by positivity
    have hlt := Int.emod_lt_of_pos s hpos
    have h1 : s % 2 ^ (8 - (k % 8).toNat) = s := hs.1
    rw [h1] at hlt
    exact hlt
  · intro hlt
    rw [hmain]
    exact mapSamples_eq_self (samplesIn_and hB hlt) fun s hs =>
      Int.emod_eq_of_lt hs.1.1 hs.2

/-- Witness for C2 at a concrete lossy input: sample 200, key 1; the
round-tripped sample is 200 mod 128. -/
theorem C2_witness :
    decrypt_image_from_array (encrypt_image_from_array (PixBuf.g [[0]])
        (PixBuf.g [[200]]) 1 "shift") 1 "shift" =
      (PixBuf.g [[200]]).mapSamples fun s => s % 2 ^ (8 - ((1 : Int) % 8).toNat) :=
  (C2_shift_roundtrip (PixBuf.g [[200]]) (PixBuf.g [[0]]) 1
    (by simp [PixBuf.InRange, PixBuf.samplesIn, rowsAll2])
    (by norm_num) (by norm_num)).1

/-! ### Claim C3 -/

/-- C3: every transform, forward and backward, for all five recognized
methods, preserves the numpy shape of the buffer exactly (width, height and
channel count).  The noise buffer drawn inside the steganography branch has
the shape of the input by construction, which the hypothesis on the explicit
`noise` argument records. -/
theorem C3_shape_preservation (B noise : PixBuf) (sh : List Nat) (k : Int) (m : String)
    (hB : B.HasShape sh) (hnoise : noise.HasShape sh)
    (hm : m ∈ ["swap", "xor", "shift", "aes", "steganography"]) :
    (encrypt_image_from_array noise B k m).HasShape sh ∧
    (decrypt_image_from_array B k m).HasShape sh := by
  simp only [List.mem_cons, List.not_mem_nil, or_false] at hm
  rcases hm with rfl | rfl | rfl | rfl | rfl
  · -- swap
    constructor
    · cases B with
      | g rows =>
          rw [encrypt_swap_g_eq]
          exact hasShape_mapSamples _ hB
      | c rows =>
          rw [encrypt_swap_c_eq]
          apply hasShape_mapSamples
          by_cases hch : 3 ≤ numChannels rows
          · rw [if_pos hch]
            obtain ⟨h, w, ch, rfl, hs⟩ := hasShape_c_elim hB
            exact rowsShape3_mapPixel (swapEncPixel_length k) hs
          · rw [if_neg hch]
            exact hB
    · cases B with
      | g rows =>
          rw [decrypt_swap_g_eq]
          exact hasShape_mapSamples _ hB
      | c rows =>
          rw [decrypt_swap_c_eq]
          apply hasShape_mapSamples
          by_cases hch : 3 ≤ numChannels rows
          · rw [if_pos hch]
            obtain ⟨h, w, ch, rfl, hs⟩ := hasShape_c_elim hB
            exact rowsShape3_mapPixel (swapDecPixel_length k) hs
          · rw [if_neg hch]
            exact hB
  · -- xor
    constructor
    · rw [encrypt_xor_eq]
      exact hasShape_mapSamples _ (hasShape_mapSamples _ hB)
    · rw [decrypt_xor_eq]
      exact hasShape_mapSamples _ (hasShape_mapSamples _ hB)
  · -- shift
    constructor
    · rw [encrypt_shift_eq]
      exact hasShape_mapSamples _ (hasShape_mapSamples _ hB)
    · rw [decrypt_shift_eq]
      exact hasShape_mapSamples _ (hasShape_mapSamples _ hB)
  · -- aes
    constructor
    · rw [encrypt_aes_eq]
      exact hasShape_mapSamples _ (hasShape_mapSamples _ (hasShape_rollAxis0 _ hB))
    · rw [decrypt_aes_eq]
      exact hasShape_mapSamples _ (hasShape_mapSamples _ (hasShape_rollAxis0 _ hB))
  · -- steganography
    constructor
    · rw [encrypt_steg_eq]
      exact hasShape_mapSamples _ (hasShape_zipSamples _ hB hnoise)
    · rw [decrypt_steg_eq]
      exact hasShape_mapSamples _ (hasShape_mapSamples _ hB)

/-- Witness for C3: the aes transform on a concrete 2-by-2 grayscale buffer
keeps shape (2, 2). -/
theorem C3_witness :
    (encrypt_image_from_array (PixBuf.g [[0, 1], [1, 0]])
        (PixBuf.g [[1, 2], [3, 4]]) 5 "aes").HasShape [2, 2] ∧
    (decrypt_image_from_array (PixBuf.g [[1, 2], [3, 4]]) 5 "aes").HasShape [2, 2] :=
  C3_shape_preservation (PixBuf.g [[1, 2], [3, 4]]) (PixBuf.g [[0, 1], [1, 0]]) [2, 2] 5 "aes"
    ⟨rfl, by
      intro r hr
      simp only [List.mem_cons, List.not_mem_nil, or_false] at hr
      rcases hr with rfl | rfl <;> rfl⟩
    ⟨rfl, by
      intro r hr
      simp only [List.mem_cons, List.not_mem_nil, or_false] at hr
      rcases hr with rfl | rfl <;> rfl⟩
    (by decide)

/-! ### Claim C4 -/

/-- C4 counterexample: the claim states that an unrecognized method
identifier makes both transforms fail with an explicit error result rather
than silently returning a buffer.  The source has no such error path: with
the unknown method "caesar" both functions fall through every branch and
return the (clipped) input buffer unchanged. -/
theorem C4_counterexample_unknown_method :
    encrypt_image_from_array (PixBuf.g [[0]]) (PixBuf.g [[5]]) 3 "caesar" = PixBuf.g [[5]] ∧
    decrypt_image_from_array (PixBuf.g [[5]]) 3 "caesar" = PixBuf.g [[5]] :=
  ⟨rfl, rfl⟩

/-- C4 (amended): for a method identifier outside the five recognized ones,
`encrypt_image_from_array` and `decrypt_image_from_array` do not signal any
error; they silently return the input buffer unchanged (the source defines
no TransformError and raises nothing on this path - the final clip is the
identity on an in-range buffer). -/
theorem C4_unknown_method_silent (B noise : PixBuf) (k : Int) (m : String)
    (hB : B.InRange)
    (hm : m ∉ ["swap", "xor", "shift", "aes", "steganography"]) :
    encrypt_image_from_array noise B k m = B ∧
    decrypt_image_from_array B k m = B := by
  simp only [List.mem_cons, List.not_mem_nil, or_false, not_or] at hm
  obtain ⟨h1, h2, h3, h4, h5⟩ := hm
  constructor
  · show clipBuf (encryptBody noise B k m) = B
    unfold encryptBody
    rw [if_neg h1, if_neg h2, if_neg h3, if_neg h4, if_neg h5]
    exact clipBuf_eq_self hB
  · show clipBuf (decryptBody B k m) = B
    unfold decryptBody
    rw [if_neg h1, if_neg h2, if_neg h3, if_neg h4, if_neg h5]
    exact clipBuf_eq_self hB

/-- Witness for C4 (amended) at a concrete unknown method name. -/
theorem C4_witness :
    encrypt_image_from_array (PixBuf.g [[0]]) (PixBuf.g [[7]]) 9 "rot13" = PixBuf.g [[7]] :=
  (C4_unknown_method_silent (PixBuf.g [[7]]) (PixBuf.g [[0]]) 9 "rot13"
    (by simp [PixBuf.InRange, PixBuf.samplesIn, rowsAll2]) (by decide)).1

/-! ### Claim C5 -/

theorem analyze_image_none_iff (B : PixBuf) :
    analyze_image B = none ↔
      ¬(2 ≤ (grayOf B).length ∧ 2 ≤ ((grayOf B).head?.getD []).length) := by
  show (if 2 ≤ (grayOf B).length ∧ 2 ≤ ((grayOf B).head?.getD []).length then
    some _ else none) = none ↔ _
  by_cases hc : 2 ≤ (grayOf B).length ∧ 2 ≤ ((grayOf B).head?.getD []).length
  · rw [if_pos hc]
    simp [hc]
  · rw [if_neg hc]
    simp [hc]

/-- C5 counterexample: the claim states that `analyze` on a 1-by-1
single-sample image succeeds and returns entropy 0.  In the source the
whole analysis body is wrapped in `try/except: return None`, and
`np.gradient` on line 48 raises for an array with fewer than two elements
along an axis, so the 1-by-1 image makes `analyze_image` return `None` (an
analysis failure), not a result. -/
theorem C5_counterexample_analyze_1x1 : analyze_image (PixBuf.g [[7]]) = none := rfl

/-- C5 (amended): `analyze_image` fails (returns `None`) exactly when the
buffer has fewer than 2 rows or fewer than 2 columns, because the
`np.gradient` edge-detection step requires at least two elements along each
axis and its exception is swallowed by the surrounding
`try/except: return None`.  In particular a 1-by-1 image fails, and images
with zero width or height also fail; for buffers with at least 2 rows and
2 columns (and at least one channel) the analysis succeeds. -/
theorem C5_analyze_none_iff :
    (∀ (rows : Img2) (h w : Nat), RowsShape2 rows h w →
      (analyze_image (.g rows) = none ↔ h < 2 ∨ w < 2)) ∧
    (∀ (rows : Img3) (h w ch : Nat), 1 ≤ ch → RowsShape3 rows h w ch →
      (analyze_image (.c rows) = none ↔ h < 2 ∨ w < 2)) := by
  constructor
  · intro rows h w hs
    rw [analyze_image_none_iff]
    rcases rows with _ | ⟨r, rest⟩
    · have h0 : h = 0 := by simpa using hs.1.symm
      subst h0
      simp [grayOf]
    · have hh : rest.length + 1 = h := by simpa using hs.1
      have hw : r.length = w := hs.2 r (List.mem_cons_self r rest)
      have hL : (grayOf (PixBuf.g (r :: rest))).length = rest.length + 1 := by
        simp [grayOf]
      have hH : ((grayOf (PixBuf.g (r :: rest))).head?.getD []).length = r.length := by
        simp [grayOf]
      rw [hL, hH, hh, hw]
      omega
  · intro rows h w ch _hch hs
    rw [analyze_image_none_iff]
    rcases rows with _ | ⟨r, rest⟩
    · have h0 : h = 0 := by simpa using hs.1.symm
      subst h0
      simp [grayOf]
    · have hh : rest.length + 1 = h := by simpa using hs.1
      have hw : r.length = w := (hs.2 r (List.mem_cons_self r rest)).1
      have hL : (grayOf (PixBuf.c (r :: rest))).length = rest.length + 1 := by
        simp [grayOf]
      have hH : ((grayOf (PixBuf.c (r :: rest))).head?.getD []).length = r.length := by
        simp [grayOf]
      rw [hL, hH, hh, hw]
      omega

/-- Witness for C5 (amended): at a concrete rectangular 2-by-2 buffer the
iff yields that the analysis succeeds. -/
theorem C5_witness :
    (analyze_image (PixBuf.g [[1, 2], [3, 4]]) = none) ↔ (2 < 2 ∨ 2 < 2) :=
  C5_analyze_none_iff.1 [[1, 2], [3, 4]] 2 2
    ⟨rfl, by
      intro r hr
      simp only [List.mem_cons, List.not_mem_nil, or_false] at hr
      rcases hr with rfl | rfl <;> rfl⟩

/-! ### Claim C6 -/

/-- C6: for every nonnegative entropy and contrast and every base key in
[1,255], `generate_smart_key` returns
`max 1 (floor(baseKey * entropy * contrast) mod 256)`, a value always in
[1,255]; in particular baseKey 10, entropy 2, contrast 50 yields 232. -/
theorem C6_generate_smart_key :
    (∀ (e c : ℚ) (b : Int), 0 ≤ e → 0 ≤ c → 1 ≤ b → b ≤ 255 →
      generate_smart_key ⟨e, c, complexityOf e⟩ b = max 1 (⌊(b : ℚ) * e * c⌋ % 256) ∧
      1 ≤ generate_smart_key ⟨e, c, complexityOf e⟩ b ∧
      generate_smart_key ⟨e, c, complexityOf e⟩ b ≤ 255) ∧
    generate_smart_key ⟨2, 50, complexityOf 2⟩ 10 = 232 := by
  constructor
  · intro e c b he hc hb1 _hb255
    have hb0 : (0 : ℚ) ≤ (b : ℚ) := by
      have : (0 : Int) ≤ b := by omega
      exact_mod_cast this
    have hq : ¬((b : ℚ) * e * c < 0) :=
      not_lt.mpr (mul_nonneg (mul_nonneg hb0 he) hc)
    have hpy : pyInt ((b : ℚ) * e * c) = ⌊(b : ℚ) * e * c⌋ := by
      unfold pyInt
      rw [if_neg hq]
    refine ⟨?_, ?_, ?_⟩
    · unfold generate_smart_key
      rw [hpy]
    · exact le_max_left 1 _
    · have hmod2 : pyInt ((b : ℚ) * e * c) % 256 < 256 :=
        Int.emod_lt_of_pos _ (by omega)
      unfold generate_smart_key
      exact max_le (by omega) (by omega)
  · norm_num [generate_smart_key, pyInt, complexityOf]

/-- Witness for C6 at entropy 2, contrast 50, base key 10. -/
theorem C6_witness :
    1 ≤ generate_smart_key ⟨2, 50, complexityOf 2⟩ 10 ∧
    generate_smart_key ⟨2, 50, complexityOf 2⟩ 10 ≤ 255 :=
  (C6_generate_smart_key.1 2 50 10 (by norm_num) (by norm_num) (by norm_num)
    (by norm_num)).2

/-! ### Claim C7 -/

/-- C7: `recommend_method` is a deterministic total decision table with
first match winning: high complexity gives aes; otherwise contrast above 50
gives xor; otherwise swap.  Combined with the complexity classification of
`analyze_image` (entropy above 6 is high, above 4 medium, else low):
entropy 7 with any contrast gives aes, entropy 5 with contrast 60 gives
xor, entropy 3 with contrast 10 gives swap. -/
theorem C7_recommend_method :
    (∀ e c : ℚ, recommend_method ⟨e, c, complexityOf e⟩ =
      if 6 < e then "aes" else if 50 < c then "xor" else "swap") ∧
    (∀ c : ℚ, recommend_method ⟨7, c, complexityOf 7⟩ = "aes") ∧
    recommend_method ⟨5, 60, complexityOf 5⟩ = "xor" ∧
    recommend_method ⟨3, 10, complexityOf 3⟩ = "swap" := by
  have hmain : ∀ e c : ℚ, recommend_method ⟨e, c, complexityOf e⟩ =
      if 6 < e then "aes" else if 50 < c then "xor" else "swap" := by
    intro e c
    by_cases h6 : 6 < e
    · simp [recommend_method, complexityOf, h6]
    · by_cases h4 : 4 < e
      · by_cases h50 : 50 < c <;>
          simp [recommend_method, complexityOf, h6, h4, h50]
      · by_cases h50 : 50 < c <;>
          simp [recommend_method, complexityOf, h6, h4, h50]
  refine ⟨hmain, fun c => ?_, ?_, ?_⟩
  · rw [hmain 7 c]
    norm_num
  · rw [hmain 5 60]
    norm_num
  · rw [hmain 3 10]
    norm_num

/-! ### Claim C8 -/

/-- C8: for every in-range buffer `B` and key in [1,255], the backward
steganography transform maps every sample to the same sample with its least
significant bit cleared (arithmetically, `s - s mod 2`), independently of
whether `B` came from a forward call. -/
theorem C8_steganography_backward (B : PixBuf) (k : Int)
    (hB : B.InRange) (_hk1 : 1 ≤ k) (_hk255 : k ≤ 255) :
    decrypt_image_from_array B k "steganography" =
      B.mapSamples fun s => s - s % 2 := by
  rw [decrypt_steg_eq]
  have hcong : B.mapSamples (landSample 254) = B.mapSamples fun s => s - s % 2 :=
    mapSamples_congr hB fun s hs => landSample_254 hs.1 hs.2
  rw [hcong]
  apply clipBuf_eq_self
  exact samplesIn_mapSamples hB fun s hs => by
    show 0 ≤ s - s % 2 ∧ s - s % 2 ≤ 255
    omega

/-- Witness for C8: clearing the LSBs of a concrete buffer that was not
produced by any forward call. -/
theorem C8_witness :
    decrypt_image_from_array (PixBuf.g [[7, 4], [255, 0]]) 9 "steganography" =
      (PixBuf.g [[7, 4], [255, 0]]).mapSamples fun s => s - s % 2 :=
  C8_steganography_backward (PixBuf.g [[7, 4], [255, 0]]) 9
    (by simp [PixBuf.InRange, PixBuf.samplesIn, rowsAll2]) (by norm_num) (by norm_num)

/-! ### Claim C10 -/

theorem encryptBody_swap_inRange {B : PixBuf} (noise : PixBuf) (k : Int)
    (hB : B.InRange) : (encryptBody noise B k "swap").InRange := by
  cases B with
  | g rows => exact hB
  | c rows =>
      have hB3 : rowsAll3 (fun s => 0 ≤ s ∧ s ≤ 255) rows := hB
      show (if 3 ≤ numChannels rows then
        PixBuf.c (rows.map (List.map (swapEncPixel k))) else PixBuf.c rows).InRange
      by_cases hch : 3 ≤ numChannels rows
      · rw [if_pos hch]
        intro r hr p hp s hs
        rcases List.mem_map.mp hr with ⟨r0, hr0, rfl⟩
        rcases List.mem_map.mp hp with ⟨p0, hp0, rfl⟩
        exact mem_swapEncPixel_range (fun t ht => hB3 r0 hr0 p0 hp0 t ht) s hs
      · rw [if_neg hch]
        exact hB

theorem decryptBody_swap_inRange {B : PixBuf} (k : Int)
    (hB : B.InRange) : (decryptBody B k "swap").InRange := by
  cases B with
  | g rows => exact hB
  | c rows =>
      have hB3 : rowsAll3 (fun s => 0 ≤ s ∧ s ≤ 255) rows := hB
      show (if 3 ≤ numChannels rows then
        PixBuf.c (rows.map (List.map (swapDecPixel k))) else PixBuf.c rows).InRange
      by_cases hch : 3 ≤ numChannels rows
      · rw [if_pos hch]
        intro r hr p hp s hs
        rcases List.mem_map.mp hr with ⟨r0, hr0, rfl⟩
        rcases List.mem_map.mp hp with ⟨p0, hp0, rfl⟩
        exact mem_swapDecPixel_range (fun t ht => hB3 r0 hr0 p0 hp0 t ht) s hs
      · rw [if_neg hch]
        exact hB

/-- C10 (implicit claim): for in-range input, keys in [1,255], noise bits
in {0,1} and any of the five recognized methods, the value computed by each
method branch is already entirely within [0,255], so the final
`np.clip(..., 0, 255)` changes nothing: both transform functions equal
their unclipped bodies. -/
theorem C10_clip_noop (B noise : PixBuf) (k : Int) (m : String)
    (hB : B.InRange) (hnoise : noise.samplesIn fun n => n = 0 ∨ n = 1)
    (hk1 : 1 ≤ k) (hk255 : k ≤ 255)
    (hm : m ∈ ["swap", "xor", "shift", "aes", "steganography"]) :
    (encryptBody noise B k m).InRange ∧
    encrypt_image_from_array noise B k m = encryptBody noise B k m ∧
    (decryptBody B k m).InRange ∧
    decrypt_image_from_array B k m = decryptBody B k m := by
  have main : (encryptBody noise B k m).InRange ∧ (decryptBody B k m).InRange := by
    simp only [List.mem_cons, List.not_mem_nil, or_false] at hm
    rcases hm with rfl | rfl | rfl | rfl | rfl
    · exact ⟨encryptBody_swap_inRange noise k hB, decryptBody_swap_inRange k hB⟩
    · have h1 : (B.mapSamples (xorSample k)).InRange :=
        samplesIn_mapSamples hB fun s hs => xorSample_range hs.1 hs.2 (by omega) hk255
      exact ⟨h1, h1⟩
    · constructor
      · exact samplesIn_mapSamples hB fun s hs =>
          ⟨Int.emod_nonneg _ (by omega), by
            have := Int.emod_lt_of_pos (s * 2 ^ (k % 8).toNat)
              (show (0:Int) < 256 by omega)
            omega⟩
      · exact samplesIn_mapSamples hB fun s hs =>
          ⟨Int.emod_nonneg _ (by omega), by
            have := Int.emod_lt_of_pos (s / 2 ^ (k % 8).toNat)
              (show (0:Int) < 256 by omega)
            omega⟩
    · constructor
      · exact samplesIn_mapSamples (samplesIn_rollAxis0 k hB) fun s hs =>
          ⟨Int.emod_nonneg _ (by omega), by
            have := Int.emod_lt_of_pos (s + k * 3) (show (0:Int) < 256 by omega)
            omega⟩
      · exact samplesIn_mapSamples (samplesIn_rollAxis0 (-k) hB) fun s hs =>
          ⟨Int.emod_nonneg _ (by omega), by
            have := Int.emod_lt_of_pos (s - k * 3) (show (0:Int) < 256 by omega)
            omega⟩
    · constructor
      · exact samplesIn_zipSamples hB hnoise
          (fun x y hx hy => stegoSample_range hx.1 hx.2 hy) (fun x hx => hx)
      · exact samplesIn_mapSamples hB fun s hs => landSample_254_range hs.1 hs.2
  exact ⟨main.1, clipBuf_eq_self main.1, main.2, clipBuf_eq_self main.2⟩

/-- Witness for C10 at a concrete steganography call. -/
theorem C10_witness :
    encrypt_image_from_array (PixBuf.g [[1, 0], [0, 1]]) (PixBuf.g [[6, 255], [0, 9]])
        7 "steganography" =
      encryptBody (PixBuf.g [[1, 0], [0, 1]]) (PixBuf.g [[6, 255], [0, 9]])
        7 "steganography" :=
  (C10_clip_noop (PixBuf.g [[6, 255], [0, 9]]) (PixBuf.g [[1, 0], [0, 1]]) 7 "steganography"
    (by simp [PixBuf.InRange, PixBuf.samplesIn, rowsAll2])
    (by simp [PixBuf.samplesIn, rowsAll2])
    (by norm_num) (by norm_num) (by decide)).2.1
